import Mathlib

/-!
Verification of the GraphSAGE-style sampling + aggregation engine
(`models.py`, `nn_modules.py`): neighbor samplers, feature preparers,
the aggregator family, the quantum-walk engine, and the forward-pass
orchestration.  Machine floats are modelled as real numbers, integer
tensors as lists of naturals, and the random draws of the samplers are
passed in explicitly as function arguments.
-/

/- ------------------------------------------------------------------ -/
/- Samplers (nn_modules.py)                                            -/
/- ------------------------------------------------------------------ -/

/-- Dense sampler `UniformNeighborSampler.__call__` (nn_modules.py:42-51):
`tmp = self.adj[ids]`, then `tmp = tmp[:, perm]` for one permutation
`perm = torch.randperm(tmp.size(1))` drawn for the whole call, then
`tmp = tmp[:, :n_samples]`.  The random permutation is an explicit
argument here.  Missing rows/entries default to 0, matching total list
indexing. -/
def uniformNeighborSamplerCall (adj : List (List ℕ)) (ids : List ℕ)
    (perm : List ℕ) (n_samples : ℕ) : List (List ℕ) :=
  let tmp := ids.map (fun i => adj.getD i [])
  let tmp2 := tmp.map (fun row => perm.map (fun p => row.getD p 0))
  tmp2.map (fun row => row.take n_samples)

/-- The adjacency argument handed to a sampler constructor: either a dense
edgelist table or a scipy-style sparse CSR matrix (rows of stored
neighbor ids plus a column count). -/
inductive AdjInput where
  | dense (rows : List (List ℕ))
  | sparseCsr (rows : List (List ℕ)) (ncols : ℕ)

/-- State of a constructed `SparseUniformNeighborSampler`: the sparse
adjacency rows, the column count, and the per-node degrees precomputed
at construction (`np.unique(adj.nonzero()[0], return_counts=True)`:
the number of stored entries of each row). -/
structure SparseSamplerState where
  rows : List (List ℕ)
  ncols : ℕ
  degrees : List ℕ

/-- `SparseUniformNeighborSampler.__init__` (nn_modules.py:75-81):
`assert sparse.issparse(adj)` — a dense argument is rejected at
construction; otherwise the degrees are precomputed. -/
def sparseSamplerInit (adj : AdjInput) : Except String SparseSamplerState :=
  match adj with
  | .dense _ => .error "SparseUniformNeighborSampler: not sparse.issparse(adj)"
  | .sparseCsr rows ncols => .ok ⟨rows, ncols, rows.map List.length⟩

/-- `SparseUniformNeighborSampler.__call__` (nn_modules.py:83-104) with the
sample count passed explicitly.  `assert n_samples > 0`; then
`sel = np.random.choice(shape[1], (len(ids), n_samples)) % degrees[ids]`
and the corresponding stored row entries are gathered and flattened.
The uniform draws are supplied by `rand row col` (a value below the
column count). -/
def sparseSamplerCall (s : SparseSamplerState) (ids : List ℕ)
    (rand : ℕ → ℕ → ℕ) (n_samples : ℕ) : Except String (List ℕ) :=
  if n_samples = 0 then
    .error "SparseUniformNeighborSampler: n_samples must be set explicitly"
  else
    .ok ((List.range (ids.length * n_samples)).map (fun t =>
      let r := t / n_samples
      let c := t % n_samples
      let i := ids.getD r 0
      let d := s.degrees.getD i 0
      (s.rows.getD i []).getD (rand r c % d) 0))

/-- Calling the sparse sampler without supplying `n_samples`: the Python
signature is `def __call__(self, ids, n_samples=128)`, so an omitted
sample count becomes 128. -/
def sparseSamplerCallDefault (s : SparseSamplerState) (ids : List ℕ)
    (rand : ℕ → ℕ → ℕ) : Except String (List ℕ) :=
  sparseSamplerCall s ids rand 128

/-- Whether an `Except` result is a success. -/
def exceptOk {ε α : Type} : Except ε α → Bool
  | .ok _ => true
  | .error _ => false

/-- Length of the payload of a successful `Except` result (0 on error). -/
def exceptLen {ε : Type} : Except ε (List ℕ) → ℕ
  | .ok l => l.length
  | .error _ => 0

/- ------------------------------------------------------------------ -/
/- Feature preparers (nn_modules.py)                                   -/
/- ------------------------------------------------------------------ -/

/-- Learned state of `NodeEmbeddingPrep`: the embedding table (a row for
every id in `[0, n_nodes]`, the reserved padding id `n_nodes` included)
and the affine transform `fc`. -/
structure NodeEmbeddingPrepState where
  n_nodes : ℕ
  input_dim : ℕ
  embedding : ℕ → List ℚ
  fc : List ℚ → List ℚ

/-- The ids actually looked up in the embedding table by
`NodeEmbeddingPrep.forward` (nn_modules.py:147-152): the true ids when
`layer_idx > 0`, and `ids.clone().data.zero_() + self.n_nodes` — every
entry replaced by the padding id — at layer 0. -/
def nodeEmbLookupIds (n_nodes : ℕ) (ids : List ℕ) (layer_idx : ℕ) : List ℕ :=
  if 0 < layer_idx then ids else ids.map (fun _ => 0 + n_nodes)

/-- `NodeEmbeddingPrep.forward` (nn_modules.py:147-158): embed the looked-up
ids, apply `fc`, and concatenate with the raw features row-wise when
`input_dim` is nonzero (`torch.cat([feats, embs], dim=1)`). -/
def nodeEmbeddingPrepForward (p : NodeEmbeddingPrepState) (ids : List ℕ)
    (feats : List (List ℚ)) (layer_idx : ℕ) : List (List ℚ) :=
  let embs := (nodeEmbLookupIds p.n_nodes ids layer_idx).map
    (fun i => p.fc (p.embedding i))
  if p.input_dim ≠ 0 then (feats.zip embs).map (fun fe => fe.1 ++ fe.2)
  else embs

/- ------------------------------------------------------------------ -/
/- Aggregators (nn_modules.py)                                         -/
/- ------------------------------------------------------------------ -/

/-- The default combine function of every aggregator:
`lambda x: torch.cat(x, dim=1)`, concatenation along the feature axis
(rows modelled as flat rational lists). -/
def concatCombine (xs : List (List ℚ)) : List ℚ := xs.flatten

/-- Width bookkeeping of one aggregator layer: the input width, the
configured raw output width `output_dim_`, and the combine function. -/
structure AggLayerCfg where
  input_dim : ℕ
  output_dim_ : ℕ
  combine_fn : List (List ℚ) → List ℚ

instance : Inhabited AggLayerCfg := ⟨⟨0, 0, fun _ => []⟩⟩

/-- `AggregatorMixin.output_dim` (nn_modules.py:181-185): run the combine
function on two zero rows of width `output_dim_` and read the resulting
width. -/
def AggLayerCfg.output_dim (a : AggLayerCfg) : ℕ :=
  (a.combine_fn [List.replicate a.output_dim_ 0,
                 List.replicate a.output_dim_ 0]).length

/-- The aggregator-stack construction loop of `GSSupervised.__init__`
(models.py:71-79): each layer is built with the running `input_dim`,
which is then replaced by the layer's realized `output_dim`
(`input_dim = agg.output_dim # May not be the same as spec['output_dim']`). -/
def buildAggLayers (f : List (List ℚ) → List ℚ) (input_dim : ℕ)
    (specs : List ℕ) : List AggLayerCfg :=
  match specs with
  | [] => []
  | w :: rest =>
    let agg : AggLayerCfg := ⟨input_dim, w, f⟩
    agg :: buildAggLayers f agg.output_dim rest

/-- Constructed state of `LSTMAggregator`: the width handed to the
recurrent unit is `hidden_dim // (1 + bidirectional)`. -/
structure LSTMAggregatorState where
  input_dim : ℕ
  output_dim_ : ℕ
  lstm_hidden : ℕ
  bidirectional : Bool

/-- `LSTMAggregator.__init__` (nn_modules.py:261-268):
`assert not hidden_dim % 2` — the assert is unconditional, it does not
look at `bidirectional` — then the recurrent unit is created with
hidden width `hidden_dim // (1 + bidirectional)`. -/
def lstmAggregatorInit (input_dim output_dim hidden_dim : ℕ)
    (bidirectional : Bool) : Except String LSTMAggregatorState :=
  if hidden_dim % 2 ≠ 0 then
    .error "LSTMAggregator: hiddem_dim % 2 != 0"
  else
    .ok ⟨input_dim, output_dim,
         hidden_dim / (if bidirectional then 2 else 1), bidirectional⟩

/-- `torch.squeeze`: drop every axis of size 1 from a shape. -/
def squeezeShape (s : List ℕ) : List ℕ := s.filter (fun d => d ≠ 1)

/-- The attention weights of `AttentionAggregator.forward`
(nn_modules.py:307-313):
`ws = F.softmax(torch.bmm(neib_att, x_att).squeeze())`.
The score tensor has shape `(B, k, 1)` (entry `score b i` is the inner
product of neighbor `i` of node `b` with node `b`), `squeeze` drops the
size-1 axes, and `F.softmax` with no `dim` argument (PyTorch 0.3
semantics, matching the `torch.autograd.Variable` era of this code)
normalizes along axis 0 for tensors of rank 0, 1 or 3 and along axis 1
otherwise.  So: rank 2 after squeeze (`B > 1`, `k > 1`) normalizes each
node's `k` slots; rank 1 with `B = 1` normalizes the `k` slots of the
single node; rank 1 with `k = 1` normalizes the single slot of each node
ACROSS the batch; rank 0 (`B = k = 1`) gives the trivial weight. -/
noncomputable def attnSoftmaxWeights (B k : ℕ) (score : ℕ → ℕ → ℝ)
    (b i : ℕ) : ℝ :=
  let sq := squeezeShape [B, k, 1]
  if 2 ≤ sq.length then
    Real.exp (score b i) / ∑ j ∈ Finset.range k, Real.exp (score b j)
  else if sq.length = 1 then
    if B = 1 then
      Real.exp (score 0 i) / ∑ j ∈ Finset.range k, Real.exp (score 0 j)
    else
      Real.exp (score b 0) / ∑ a ∈ Finset.range B, Real.exp (score a 0)
  else 1

/- ------------------------------------------------------------------ -/
/- Quantum-walk engine (nn_modules.py)                                 -/
/- ------------------------------------------------------------------ -/

/-- One local subgraph built by `GenerateQuantumWalkGraphs`
(nn_modules.py:399-404): for the `graph_size` sampled ids of one seed,
`new_graph[i, t] = graph_ids[t] in adj[graph_ids[i]]` as 0/1 entries. -/
def localGraphOf (adj : List (List ℕ)) (gids : List ℕ) : List (List ℕ) :=
  gids.map (fun i =>
    gids.map (fun v => if v ∈ adj.getD i [] then 1 else 0))

/-- The batched local subgraphs of `GenerateQuantumWalkGraphs`: the
flattened sampled-id tensor `tmp` is cut into `batch_size` consecutive
chunks of `graph_size` ids, one local graph per chunk. -/
def generateGraphs (adj : List (List ℕ)) (tmp : List ℕ)
    (batch_size graph_size : ℕ) : List (List (List ℕ)) :=
  (List.range batch_size).map (fun b =>
    localGraphOf adj ((tmp.drop (b * graph_size)).take graph_size))

/-- Local degree of node `j` in local graph `g`:
`np.sum(graphs[i][j])` (nn_modules.py:420). -/
def localDegree (g : List (List ℕ)) (j : ℕ) : ℕ := (g.getD j []).sum

/-- Maximum degree over a batch of local graphs (nn_modules.py:407-413):
`degree = max over graphs of max over rows of row sum`. -/
def graphMaxDegree (gs : List (List (List ℕ))) : ℕ :=
  (gs.map (fun g => (g.map List.sum).foldr max 0)).foldr max 0

/-- One entry of the initial amplitude tensor of
`GenerateQuantumWalkGraphs` (nn_modules.py:416-424).  The tensor for one
local graph is zero-initialized; for each node `j`,
`jdegree = np.sum(graphs[i][j])`; `if jdegree == 0: continue` (the row
stays zero, no division happens); otherwise
`amps[j, :jdegree, j] = 1 / np.sqrt(jdegree)`. -/
noncomputable def initAmpEntry (g : List (List ℕ)) (j slot col : ℕ) : ℝ :=
  let jdeg := localDegree g j
  if jdeg = 0 then 0
  else if col = j ∧ slot < jdeg then 1 / Real.sqrt jdeg
  else 0

/-- The full `(graph_size, maxdeg, graph_size)` initial amplitude tensor of
one local graph, built from `initAmpEntry`. -/
noncomputable def generateAmps (g : List (List ℕ)) (maxdeg : ℕ) :
    List (List (List ℝ)) :=
  (List.range g.length).map (fun j =>
    (List.range maxdeg).map (fun s =>
      (List.range g.length).map (fun c => initAmpEntry g j s c)))

/- ------------------------------------------------------------------ -/
/- Model orchestration (models.py)                                     -/
/- ------------------------------------------------------------------ -/

/-- One sampling layer of `GSSupervised.forward` (models.py:103):
`ids = sampler_fn(ids=ids).contiguous().view(-1)` — each id is expanded
to its sampled neighbors and the result is flattened. -/
def flatSample (sample : ℕ → List ℕ) (ids : List ℕ) : List ℕ :=
  (ids.map sample).flatten

/-- A layer spec paired with its sampler: each sampler returns exactly the
layer's fan-out many neighbor ids for every node. -/
def SampleSpec (ks : List ℕ) (fns : List (ℕ → List ℕ)) : Prop :=
  List.Forall₂ (fun k f => ∀ n : ℕ, (f n).length = k) ks fns

/-- The feature groups appended inside the sampling loop of
`GSSupervised.forward` (models.py:102-111): at each layer the ids are
expanded and `prep(ids, feats[ids], layer_idx + 1)` is appended. -/
def buildAllFeatsAux {α : Type} (prep : List ℕ → ℕ → α)
    (fns : List (ℕ → List ℕ)) (ids : List ℕ) (depth : ℕ) : List α :=
  match fns with
  | [] => []
  | f :: rest =>
    let ids2 := flatSample f ids
    prep ids2 depth :: buildAllFeatsAux prep rest ids2 (depth + 1)

/-- The full `all_feats` list built in `GSSupervised.forward` before
aggregation (models.py:99-111): the prepared seed features followed by
one prepared group per sampling layer. -/
def buildAllFeats {α : Type} (prep : List ℕ → ℕ → α)
    (fns : List (ℕ → List ℕ)) (ids : List ℕ) : List α :=
  prep ids 0 :: buildAllFeatsAux prep fns ids 1

/-- The aggregation stack of `GSSupervised.forward` (models.py:117-122):
for each aggregator layer,
`all_feats = [agg(all_feats[k], all_feats[k+1]) for k in range(len(all_feats) - 1)]`,
which is `zipWith agg all_feats all_feats.tail`; the layers are applied
sequentially. -/
def aggReduce {α : Type} (layers : List (α → α → α)) (fs : List α) : List α :=
  layers.foldl (fun acc g => List.zipWith g acc acc.tail) fs

/-- The end of the aggregation stack (models.py:123-124):
`assert len(all_feats) == 1` and then `all_feats[0]` is consumed.  A
surviving list of any other length raises (`none`), it is never
truncated. -/
def forwardFinish {α : Type} (fs : List α) : Option α :=
  match fs with
  | [x] => some x
  | _ => none

/-- The quantum-walk bookkeeping fields of `GSSupervised`
(models.py:58-68), parametric in the amplitude payload `A` so that
theorems can instrument where each appended amplitude tensor came from:
`self.quantum_walk`, `self.quantum_neighbors`, and the three parallel
lists `self.all_amps`, `self.all_graphs`, `self.max_degrees`
(initialized to `[]` in `__init__` and never cleared). -/
structure GSQWState (A : Type) where
  quantum_walk : Bool
  quantum_neighbors : Bool
  all_amps : List A
  all_graphs : List (List (List (List ℕ)))
  max_degrees : List ℕ

/-- The state effect of the sampling loop of `GSSupervised.forward`
(models.py:102-111) when the quantum-walk option is on: per layer the
ids are expanded and, if `self.quantum_neighbors`, the results of
`GenerateQuantumWalkGraphs(adj, ids, original_id_len, len(ids)/original_id_len)`
are appended to the three lists.  `genAmps` stands for the amplitude
tensor returned by that call (its arguments are the adjacency, the
expanded ids, the batch size and the fan-out). -/
def gsQWLoop {A : Type}
    (genAmps : List (List ℕ) → List ℕ → ℕ → ℕ → A)
    (adj : List (List ℕ)) (fns : List (ℕ → List ℕ)) (B : ℕ)
    (st : GSQWState A) (ids : List ℕ) : GSQWState A × List ℕ :=
  match fns with
  | [] => (st, ids)
  | f :: rest =>
    let ids2 := flatSample f ids
    let F := ids2.length / B
    let st2 :=
      if st.quantum_neighbors then
        { st with
          all_amps := st.all_amps ++ [genAmps adj ids2 B F],
          all_graphs := st.all_graphs ++ [generateGraphs adj ids2 B F],
          max_degrees :=
            st.max_degrees ++ [graphMaxDegree (generateGraphs adj ids2 B F)] }
      else st
    gsQWLoop genAmps adj rest B st2 ids2

/-- The full quantum-walk state effect of one `GSSupervised.forward` call
(models.py:101-114): run the sampling loop with `B = len(ids)` and then
`if self.quantum_walk: self.quantum_neighbors = False`. -/
def gsForwardQW {A : Type}
    (genAmps : List (List ℕ) → List ℕ → ℕ → ℕ → A)
    (adj : List (List ℕ)) (fns : List (ℕ → List ℕ))
    (st : GSQWState A) (ids : List ℕ) : GSQWState A :=
  let st2 := (gsQWLoop genAmps adj fns ids.length st ids).1
  if st2.quantum_walk then { st2 with quantum_neighbors := false } else st2

/- ------------------------------------------------------------------ -/
/- Final normalization and classifier head (models.py:123-125)         -/
/- ------------------------------------------------------------------ -/

/-- Squared L2 norm of a feature row. -/
noncomputable def rowNorm (v : List ℝ) : ℝ :=
  Real.sqrt (v.map (fun x => x ^ 2)).sum

/-- The `eps` of `torch.nn.functional.normalize` (default `1e-12`). -/
noncomputable def l2eps : ℝ := 1 / 10 ^ 12

/-- One row of `F.normalize(x, dim=1)` (models.py:124): the row divided by
`max(‖row‖₂, eps)`. -/
noncomputable def normalizeRow (v : List ℝ) : List ℝ :=
  v.map (fun x => x / max (rowNorm v) l2eps)

/-- The tail of `GSSupervised.forward` (models.py:124-125):
`out = F.normalize(all_feats[0], dim=1); return self.fc(out)` — the
linear classifier head consumes only the row-normalized embedding. -/
noncomputable def gsHead (fc : List ℝ → List ℝ) (emb : List (List ℝ)) :
    List (List ℝ) :=
  (emb.map normalizeRow).map fc

/- ------------------------------------------------------------------ -/
/- Theorems                                                            -/
/- ------------------------------------------------------------------ -/

/-- C3: for the embedding-augmented feature preparer, at layer depth 0 the
embedding looked up for every seed id equals the embedding of the
reserved padding id `n_nodes`, regardless of the seed's true id — so the
layer-0 output does not depend on which ids were passed, only on how
many — while at every depth greater than 0 the true neighbor ids are
embedded. -/
theorem c3_embedding_prep_padding (p : NodeEmbeddingPrepState)
    (ids ids2 : List ℕ) (feats : List (List ℚ)) (l : ℕ) :
    ((nodeEmbLookupIds p.n_nodes ids 0).map p.embedding
        = List.replicate ids.length (p.embedding p.n_nodes))
    ∧ (ids.length = ids2.length →
        nodeEmbeddingPrepForward p ids feats 0
          = nodeEmbeddingPrepForward p ids2 feats 0)
    ∧ (0 < l → nodeEmbLookupIds p.n_nodes ids l = ids) := by
  have h : ∀ (js : List ℕ) (g : ℕ → List ℚ) (v : ℕ),
      (js.map (fun _ => v)).map g = List.replicate js.length (g v) := by
    intro js g v
    induction js with
    | nil => rfl
    | cons a t ih =>
      simp only [List.map_cons, List.length_cons, List.replicate_succ, ih]
  refine ⟨?_, ?_, ?_⟩
  · simp [nodeEmbLookupIds, h]
  · intro hlen
    simp only [nodeEmbeddingPrepForward, nodeEmbLookupIds, if_neg (lt_irrefl 0)]
    rw [h ids _ (0 + p.n_nodes), h ids2 _ (0 + p.n_nodes), hlen]
  · intro hl
    simp [nodeEmbLookupIds, hl]

/-- C3 witness: a concrete preparer and two different singleton seed lists
produce identical layer-0 outputs, and depth 1 embeds the true ids. -/
theorem c3_embedding_prep_padding_witness :
    (([3] : List ℕ).length = ([4] : List ℕ).length)
    ∧ (nodeEmbeddingPrepForward ⟨5, 0, fun i => [(i : ℚ)], id⟩ [3] [] 0
        = nodeEmbeddingPrepForward ⟨5, 0, fun i => [(i : ℚ)], id⟩ [4] [] 0)
    ∧ nodeEmbLookupIds 5 [3] 1 = [3] :=
  ⟨rfl,
   (c3_embedding_prep_padding ⟨5, 0, fun i => [(i : ℚ)], id⟩ [3] [4] [] 1).2.1 rfl,
   (c3_embedding_prep_padding ⟨5, 0, fun i => [(i : ℚ)], id⟩ [3] [4] [] 1).2.2
     (by decide)⟩

/-- C8 counterexample: the claim says an odd hidden width with
`bidirectional = False` is a valid configuration, but
`LSTMAggregator.__init__` asserts `not hidden_dim % 2` unconditionally,
so construction with `hidden_dim = 3, bidirectional = False` fails. -/
theorem c8_lstm_odd_nonbidirectional_fails :
    lstmAggregatorInit 8 16 3 false
      = Except.error "LSTMAggregator: hiddem_dim % 2 != 0" := rfl

/-- C8 (amended): the recurrent aggregator's construction fails exactly
when the hidden width is odd, regardless of the bidirectional flag; an
even width constructs successfully, handing the recurrent unit the width
`hidden_dim / (1 + bidirectional)`. -/
theorem c8_lstm_even_hidden_required (i o h : ℕ) (b : Bool) :
    (exceptOk (lstmAggregatorInit i o h b) = true ↔ h % 2 = 0)
    ∧ (h % 2 = 0 →
        lstmAggregatorInit i o h b
          = Except.ok ⟨i, o, h / (if b then 2 else 1), b⟩) := by
  constructor
  · by_cases hh : h % 2 = 0
    · simp [lstmAggregatorInit, hh, exceptOk]
    · simp [lstmAggregatorInit, hh, exceptOk]
  · intro hh
    simp [lstmAggregatorInit, hh]

/-- C8 witness: an even hidden width with the bidirectional flag set
constructs successfully and halves the recurrent width. -/
theorem c8_lstm_even_hidden_required_witness :
    (4 % 2 = 0)
    ∧ lstmAggregatorInit 1 2 4 true = Except.ok ⟨1, 2, 2, true⟩ :=
  ⟨rfl, (c8_lstm_even_hidden_required 1 2 4 true).2 rfl⟩

/-- The sparse sampler state used in the C4 evaluation: one node with a
single stored neighbor (id 1) in a 4-column sparse row. -/
def c4state : SparseSamplerState := ⟨[[1]], 4, [1]⟩

/-- C4: evaluating the code at the failing input.  Construction does fail
on a non-sparse adjacency and a zero sample count does fail, but calling
the sparse sampler WITHOUT a sample count does not fail: the signature
default `n_samples=128` passes the positivity assert silently and 128
samples per id are returned — contradicting the claim (and the assert's
own message) that the count must be supplied explicitly. -/
theorem c4_sparse_sampler_silent_default :
    (exceptOk (sparseSamplerInit (AdjInput.dense [[1]])) = false)
    ∧ (sparseSamplerInit (AdjInput.sparseCsr [[1]] 4) = Except.ok c4state)
    ∧ (exceptOk (sparseSamplerCall c4state [0] (fun r c => r + c) 0) = false)
    ∧ (exceptOk (sparseSamplerCallDefault c4state [0] (fun r c => r + c)) = true)
    ∧ (exceptLen (sparseSamplerCallDefault c4state [0] (fun r c => r + c)) = 128) := by
  refine ⟨rfl, rfl, rfl, rfl, ?_⟩
  simp [sparseSamplerCallDefault, sparseSamplerCall, exceptLen]

/-- Indexing commutes with `map` under a bound: used to read one row out of
the dense sampler's batched output. -/
lemma list_getD_map {α β : Type} (f : α → β) (l : List α) (r : ℕ) (d : β)
    (d0 : α) (hr : r < l.length) : (l.map f).getD r d = f (l.getD r d0) := by
  rw [List.getD_eq_getElem?_getD, List.getElem?_map, List.getElem?_eq_getElem hr]
  simp [List.getD_eq_getElem?_getD, List.getElem?_eq_getElem hr]

/-- C9: the dense sampler applies ONE permutation — the one drawn for the
call — to every row it looks up: row `r` of the output is the first `k`
columns of row `adj[ids[r]]` permuted by that shared `perm`; in
particular two ids with equal neighbor rows always produce equal sample
rows (there is no independent per-row permutation), and there is one
output row per input id. -/
theorem c9_dense_sampler_shared_permutation (adj : List (List ℕ))
    (ids perm : List ℕ) (k r s : ℕ)
    (hr : r < ids.length) (hs : s < ids.length) :
    ((uniformNeighborSamplerCall adj ids perm k).getD r []
        = (perm.map (fun p => (adj.getD (ids.getD r 0) []).getD p 0)).take k)
    ∧ ((adj.getD (ids.getD r 0) []) = (adj.getD (ids.getD s 0) []) →
        (uniformNeighborSamplerCall adj ids perm k).getD r []
          = (uniformNeighborSamplerCall adj ids perm k).getD s [])
    ∧ ((uniformNeighborSamplerCall adj ids perm k).length = ids.length) := by
  have key : ∀ t : ℕ, t < ids.length →
      (uniformNeighborSamplerCall adj ids perm k).getD t []
        = (perm.map (fun p => (adj.getD (ids.getD t 0) []).getD p 0)).take k := by
    intro t ht
    simp only [uniformNeighborSamplerCall, List.map_map]
    exact list_getD_map _ ids t [] 0 ht
  refine ⟨key r hr, ?_, ?_⟩
  · intro hadj
    rw [key r hr, key s hs, hadj]
  · simp [uniformNeighborSamplerCall]

/-- C9 witness: a concrete call where two ids share a neighbor row and
receive identical permuted-truncated samples. -/
theorem c9_dense_sampler_shared_permutation_witness :
    ((0 : ℕ) < ([0, 1] : List ℕ).length ∧ (1 : ℕ) < ([0, 1] : List ℕ).length)
    ∧ (uniformNeighborSamplerCall [[5, 6], [5, 6]] [0, 1] [1, 0] 1).getD 0 []
        = (uniformNeighborSamplerCall [[5, 6], [5, 6]] [0, 1] [1, 0] 1).getD 1 [] :=
  ⟨⟨by decide, by decide⟩,
   (c9_dense_sampler_shared_permutation [[5, 6], [5, 6]] [0, 1] [1, 0] 1 0 1
     (by decide) (by decide)).2.1 rfl⟩

/-- The head layer of the construction loop is built with the width the
loop threads in. -/
lemma buildAggLayers_head_input (f : List (List ℚ) → List ℚ) (x : ℕ)
    (specs : List ℕ) (h : 0 < (buildAggLayers f x specs).length) :
    ((buildAggLayers f x specs).getD 0 default).input_dim = x := by
  cases specs with
  | nil => simp [buildAggLayers] at h
  | cons w rest => rfl

/-- Successive layers built by `GSSupervised.__init__` are chained through
the realized `output_dim`. -/
lemma buildAggLayers_chain (f : List (List ℚ) → List ℚ) :
    ∀ (specs : List ℕ) (d i : ℕ),
      i + 1 < (buildAggLayers f d specs).length →
      ((buildAggLayers f d specs).getD (i + 1) default).input_dim
        = ((buildAggLayers f d specs).getD i default).output_dim := by
  intro specs
  induction specs with
  | nil => intro d i h; simp [buildAggLayers] at h
  | cons w rest ih =>
    intro d i h
    cases i with
    | zero =>
      have hlen : 0 < (buildAggLayers f (AggLayerCfg.output_dim ⟨d, w, f⟩) rest).length := by
        simpa [buildAggLayers] using h
      simpa [buildAggLayers, List.getD_cons_succ, List.getD_cons_zero] using
        buildAggLayers_head_input f _ rest hlen
    | succ i' =>
      have h' : i' + 1 < (buildAggLayers f (AggLayerCfg.output_dim ⟨d, w, f⟩) rest).length := by
        simpa [buildAggLayers] using h
      simpa [buildAggLayers, List.getD_cons_succ] using ih _ i' h'

/-- C6: in the stack built by `GSSupervised.__init__`, every layer's input
width equals the PREVIOUS layer's realized `output_dim` (the width read
off the combine function applied to two zero rows), and with the default
concatenation combine the realized width is twice the configured raw
width. -/
theorem c6_realized_output_dim (f : List (List ℚ) → List ℚ) (d : ℕ)
    (specs : List ℕ) (i : ℕ)
    (h : i + 1 < (buildAggLayers f d specs).length) :
    (((buildAggLayers f d specs).getD (i + 1) default).input_dim
        = ((buildAggLayers f d specs).getD i default).output_dim)
    ∧ (∀ a : AggLayerCfg, a.combine_fn = concatCombine →
        a.output_dim = 2 * a.output_dim_) := by
  refine ⟨buildAggLayers_chain f specs d i h, ?_⟩
  intro a ha
  simp only [AggLayerCfg.output_dim, ha, concatCombine, List.flatten,
    List.length_append, List.length_replicate, List.length_nil]
  omega

/-- C6 witness: a two-layer stack with the concatenation combine; the
second layer's input width is the first layer's realized output width. -/
theorem c6_realized_output_dim_witness :
    (0 + 1 < (buildAggLayers concatCombine 3 [4, 5]).length)
    ∧ ((buildAggLayers concatCombine 3 [4, 5]).getD 1 default).input_dim
        = ((buildAggLayers concatCombine 3 [4, 5]).getD 0 default).output_dim :=
  ⟨by decide, (c6_realized_output_dim concatCombine 3 [4, 5] 0 (by decide)).1⟩

/-- Sampling expands every id into exactly the layer's fan-out many ids. -/
lemma flatSample_length (f : ℕ → List ℕ) (k : ℕ)
    (hf : ∀ n : ℕ, (f n).length = k) :
    ∀ ids : List ℕ, (flatSample f ids).length = ids.length * k := by
  intro ids
  induction ids with
  | nil => simp [flatSample]
  | cons a t ih =>
    simp only [flatSample, List.map_cons, List.flatten_cons, List.length_append,
      hf, List.length_cons] at ih ⊢
    rw [Nat.succ_mul]
    omega

/-- A `scanl` starts with its initial accumulator. -/
lemma scanl_self_cons {β α : Type} (g : β → α → β) (c : β) (l : List α) :
    List.scanl g c l = c :: (List.scanl g c l).tail := by
  cases l with
  | nil => rfl
  | cons a t => simp [List.scanl_cons]

/-- The sizes of the feature groups appended by the sampling loop follow
the running product of the fan-outs. -/
lemma buildAllFeatsAux_sizes {α : Type} (prep : List ℕ → ℕ → List α)
    (hprep : ∀ (g : List ℕ) (i : ℕ), (prep g i).length = g.length) :
    ∀ (ks : List ℕ) (fns : List (ℕ → List ℕ)), SampleSpec ks fns →
      ∀ (ids : List ℕ) (depth : ℕ),
        (buildAllFeatsAux prep fns ids depth).map List.length
          = (List.scanl (fun a k => a * k) ids.length ks).tail := by
  intro ks fns hspec
  induction hspec with
  | nil => intro ids depth; simp [buildAllFeatsAux]
  | @cons k f ks' fns' h1 h2 ih =>
    intro ids depth
    simp only [buildAllFeatsAux, List.map_cons, hprep,
      flatSample_length f k h1, List.scanl_cons, List.singleton_append,
      List.tail_cons]
    rw [ih (flatSample f ids) (depth + 1), flatSample_length f k h1]
    exact (scanl_self_cons _ _ _).symm

/-- Each pass of the aggregation stack shortens the feature-group list by
exactly one, so L layers applied to L+1 groups leave exactly one. -/
lemma aggReduce_length {α : Type} :
    ∀ (layers : List (α → α → α)) (fs : List α),
      fs.length = layers.length + 1 → (aggReduce layers fs).length = 1 := by
  intro layers
  induction layers with
  | nil => intro fs h; simpa [aggReduce] using h
  | cons g rest ih =>
    intro fs h
    have hstep : (List.zipWith g fs fs.tail).length = rest.length + 1 := by
      rw [List.length_zipWith, List.length_tail]
      simp only [List.length_cons] at h
      omega
    simpa [aggReduce, List.foldl_cons] using ih (List.zipWith g fs fs.tail) hstep

/-- C1: for L = `ks.length` sampling layers whose samplers return exactly
the configured fan-outs, the forward pass builds exactly L+1 feature
groups with row counts `B, B*k1, B*k1*k2, ...` (the `scanl` of the
products), the aggregation stack of L layers leaves exactly one group,
the final `assert len(all_feats) == 1` then succeeds, and any surviving
list with more than one group makes the assert raise (`none`) rather
than truncate. -/
theorem c1_forward_group_sizes {α : Type} (ks : List ℕ)
    (fns : List (ℕ → List ℕ)) (ids : List ℕ) (prep : List ℕ → ℕ → List α)
    (layers : List (List α → List α → List α))
    (hspec : SampleSpec ks fns) (_hL : 1 ≤ ks.length)
    (hprep : ∀ (g : List ℕ) (i : ℕ), (prep g i).length = g.length)
    (hlayers : layers.length = ks.length) :
    ((buildAllFeats prep fns ids).length = ks.length + 1)
    ∧ ((buildAllFeats prep fns ids).map List.length
        = List.scanl (fun a k => a * k) ids.length ks)
    ∧ ((aggReduce layers (buildAllFeats prep fns ids)).length = 1)
    ∧ (∃ x, forwardFinish (aggReduce layers (buildAllFeats prep fns ids))
        = some x)
    ∧ (∀ fs : List (List α), 1 < fs.length → forwardFinish fs = none) := by
  have hsizes : (buildAllFeats prep fns ids).map List.length
      = List.scanl (fun a k => a * k) ids.length ks := by
    simp only [buildAllFeats, List.map_cons, hprep,
      buildAllFeatsAux_sizes prep hprep ks fns hspec ids 1]
    exact (scanl_self_cons _ _ _).symm
  have hlen : (buildAllFeats prep fns ids).length = ks.length + 1 := by
    have := congrArg List.length hsizes
    simpa [List.length_scanl] using this
  have hone : (aggReduce layers (buildAllFeats prep fns ids)).length = 1 :=
    aggReduce_length layers _ (by rw [hlen, hlayers])
  refine ⟨hlen, hsizes, hone, ?_, ?_⟩
  · cases hfs : aggReduce layers (buildAllFeats prep fns ids) with
    | nil => rw [hfs] at hone; simp at hone
    | cons x t =>
      cases t with
      | nil => exact ⟨x, rfl⟩
      | cons y u => rw [hfs] at hone; simp at hone
  · intro fs hfs
    match fs, hfs with
    | x :: y :: u, _ => rfl

/-- C1 witness: one layer of fan-out 2 on a single seed; group sizes are
`[1, 2]` and one group survives aggregation. -/
theorem c1_forward_group_sizes_witness :
    SampleSpec [2] [fun n : ℕ => [n, n]]
    ∧ ((buildAllFeats (fun g i => g.map (fun n : ℕ => [(n : ℚ), (i : ℚ)]))
          [fun n : ℕ => [n, n]] [7]).map List.length
        = List.scanl (fun a k => a * k) 1 [2])
    ∧ ((aggReduce [fun a _ => a]
          (buildAllFeats (fun g i => g.map (fun n : ℕ => [(n : ℚ), (i : ℚ)]))
            [fun n : ℕ => [n, n]] [7])).length = 1) := by
  have hspec : SampleSpec [2] [fun n : ℕ => [n, n]] :=
    List.Forall₂.cons (fun n => rfl) List.Forall₂.nil
  refine ⟨hspec, ?_, ?_⟩
  · exact (c1_forward_group_sizes [2] [fun n : ℕ => [n, n]] [7]
      (fun g i => g.map (fun n : ℕ => [(n : ℚ), (i : ℚ)])) [fun a _ => a]
      hspec (by decide) (fun g i => by rw [List.length_map]) rfl).2.1
  · exact (c1_forward_group_sizes [2] [fun n : ℕ => [n, n]] [7]
      (fun g i => g.map (fun n : ℕ => [(n : ℚ), (i : ℚ)])) [fun a _ => a]
      hspec (by decide) (fun g i => by rw [List.length_map]) rfl).2.2.1

/-- A tiny adjacency for exercising two successive forward passes: node 1
has a self-loop, node 3 does not. -/
def c2adj : List (List ℕ) := [[1], [1], [3], [2]]

/-- A deterministic one-neighbor sampler over `c2adj` (standing for the
layer's `sampler_fn` with fan-out 1). -/
def c2fn : ℕ → List ℕ := fun n => (c2adj.getD n []).take 1

/-- The quantum-walk state as `GSSupervised.__init__` leaves it
(models.py:58-68): `quantum_walk = True`, `quantum_neighbors = True`,
and the three lists empty. -/
def c2st0 {A : Type} : GSQWState A := ⟨true, true, [], [], []⟩

/-- The quantum-walk state after the first forward pass (seed batch `[0]`). -/
def c2pass1 {A : Type} (genAmps : List (List ℕ) → List ℕ → ℕ → ℕ → A) :
    GSQWState A :=
  gsForwardQW genAmps c2adj [c2fn] c2st0 [0]

/-- The quantum-walk state after a second forward pass (seed batch `[2]`). -/
def c2pass2 {A : Type} (genAmps : List (List ℕ) → List ℕ → ℕ → ℕ → A) :
    GSQWState A :=
  gsForwardQW genAmps c2adj [c2fn] (c2pass1 genAmps) [2]

/-- C2: evaluating the forward pass's quantum-walk state at the failing
input (two successive batches).  After the first pass
`quantum_neighbors` is `False`, so the second pass appends NOTHING — the
amplitude, subgraph and max-degree lists it consumes are exactly the
first batch's (generated from the first batch's expanded ids `[1]`),
even though a fresh generation from the second batch's expanded ids
`[3]` would differ.  This holds for every amplitude generator `genAmps`,
in particular for `GenerateQuantumWalkGraphs`'s amplitude output. -/
theorem c2_qw_tensors_reused_across_batches {A : Type}
    (genAmps : List (List ℕ) → List ℕ → ℕ → ℕ → A) :
    ((c2pass1 genAmps).quantum_neighbors = false)
    ∧ ((c2pass1 genAmps).all_amps = [genAmps c2adj [1] 1 1])
    ∧ ((c2pass1 genAmps).all_graphs = [generateGraphs c2adj [1] 1 1])
    ∧ ((c2pass1 genAmps).max_degrees
        = [graphMaxDegree (generateGraphs c2adj [1] 1 1)])
    ∧ ((c2pass2 genAmps).all_amps = (c2pass1 genAmps).all_amps)
    ∧ ((c2pass2 genAmps).all_graphs = (c2pass1 genAmps).all_graphs)
    ∧ ((c2pass2 genAmps).max_degrees = (c2pass1 genAmps).max_degrees)
    ∧ (generateGraphs c2adj [1] 1 1 ≠ generateGraphs c2adj [3] 1 1) := by
  refine ⟨rfl, rfl, rfl, rfl, rfl, rfl, rfl, ?_⟩
  decide

/-- C5: in the amplitude initialization of `GenerateQuantumWalkGraphs`, a
node of local degree 0 keeps every amplitude slot at zero (the
`continue` branch — no division by the zero degree ever happens), and a
node of local degree `d > 0` gets `1/sqrt(d)` in each of its `d` used
slots, so the sum of its squared amplitudes is exactly 1. -/
theorem c5_amplitude_normalization (g : List (List ℕ)) (j : ℕ) :
    (localDegree g j = 0 → ∀ s c : ℕ, initAmpEntry g j s c = 0)
    ∧ (0 < localDegree g j →
        ∑ s ∈ Finset.range (localDegree g j), initAmpEntry g j s j ^ 2 = 1) := by
  constructor
  · intro h0 s c
    simp [initAmpEntry, h0]
  · intro hd
    have hd0 : localDegree g j ≠ 0 := Nat.pos_iff_ne_zero.mp hd
    have hdR : ((localDegree g j : ℝ)) ≠ 0 := Nat.cast_ne_zero.mpr hd0
    have hterm : ∀ s ∈ Finset.range (localDegree g j),
        initAmpEntry g j s j ^ 2 = 1 / (localDegree g j : ℝ) := by
      intro s hs
      rw [Finset.mem_range] at hs
      simp only [initAmpEntry, if_neg hd0]
      rw [if_pos (And.intro trivial hs), div_pow, one_pow,
        Real.sq_sqrt (Nat.cast_nonneg _)]
    rw [Finset.sum_congr rfl hterm, Finset.sum_const, Finset.card_range,
      nsmul_eq_mul, mul_one_div, div_self hdR]

/-- C5 witness: a two-node local graph with one edge; node 0 has degree 1
and its squared amplitudes sum to 1. -/
theorem c5_amplitude_normalization_witness :
    0 < localDegree [[0, 1], [1, 0]] 0
    ∧ ∑ s ∈ Finset.range (localDegree [[0, 1], [1, 0]] 0),
        initAmpEntry [[0, 1], [1, 0]] 0 s 0 ^ 2 = 1 :=
  ⟨by decide, (c5_amplitude_normalization [[0, 1], [1, 0]] 0).2 (by decide)⟩

/-- C7 counterexample: with batch size B = 2 and fan-out k = 1 the score
tensor squeezes to shape `(2,)`, and the implicit-dimension softmax
normalizes ACROSS THE BATCH: node 0's single attention weight is 1/2,
so its k = 1 weights do not sum to 1, contradicting the claim for every
`k >= 1`. -/
theorem c7_counterexample :
    ∑ i ∈ Finset.range 1, attnSoftmaxWeights 2 1 (fun _ _ => 0) 0 i ≠ 1 := by
  have hsq : squeezeShape [2, 1, 1] = [2] := by decide
  simp only [attnSoftmaxWeights, hsq, List.length_cons, List.length_nil]
  norm_num [Real.exp_zero]

/-- C7 (amended): for every batch size B >= 1 and fan-out k >= 2, the
softmax of the attention aggregator is taken over exactly the k neighbor
slots of each node independently — each node's k attention weights sum
to 1.  (At k = 1 the `squeeze` collapses the neighbor axis and the
implicit softmax dimension normalizes across the batch instead.) -/
theorem c7_softmax_per_node (B k : ℕ) (score : ℕ → ℕ → ℝ) (b : ℕ)
    (hk : 2 ≤ k) (hb : b < B) :
    ∑ i ∈ Finset.range k, attnSoftmaxWeights B k score b i = 1 := by
  have hk1 : k ≠ 1 := by omega
  have hsum : ∀ f : ℕ → ℝ, (∑ j ∈ Finset.range k, Real.exp (f j)) ≠ 0 := by
    intro f
    refine ne_of_gt (Finset.sum_pos (fun j _ => Real.exp_pos (f j)) ?_)
    exact ⟨0, Finset.mem_range.mpr (by omega)⟩
  by_cases hB : B = 1
  · subst hB
    have hb0 : b = 0 := by omega
    subst hb0
    have hsq : squeezeShape [1, k, 1] = [k] := by
      simp [squeezeShape, List.filter, hk1]
    simp only [attnSoftmaxWeights, hsq, List.length_cons, List.length_nil]
    norm_num
    rw [← Finset.sum_div, div_self (hsum _)]
  · have hsq : squeezeShape [B, k, 1] = [B, k] := by
      simp [squeezeShape, List.filter, hk1, hB]
    simp only [attnSoftmaxWeights, hsq, List.length_cons, List.length_nil]
    norm_num
    rw [← Finset.sum_div, div_self (hsum _)]

/-- C7 witness: B = 2, k = 2 — each node's two attention weights sum to 1. -/
theorem c7_softmax_per_node_witness :
    ((2 : ℕ) ≤ 2 ∧ (0 : ℕ) < 2)
    ∧ ∑ i ∈ Finset.range 2, attnSoftmaxWeights 2 2 (fun _ _ => 0) 0 i = 1 :=
  ⟨⟨by omega, by omega⟩,
   c7_softmax_per_node 2 2 (fun _ _ => 0) 0 (by omega) (by omega)⟩

/-- A sum of squares of a feature row is nonnegative. -/
lemma row_sum_sq_nonneg (v : List ℝ) : 0 ≤ (v.map (fun x => x ^ 2)).sum := by
  induction v with
  | nil => simp
  | cons a t ih =>
    simp only [List.map_cons, List.sum_cons]
    exact add_nonneg (sq_nonneg a) ih

/-- `rowNorm` scales inversely when every entry is divided by a positive
constant. -/
lemma rowNorm_map_div (v : List ℝ) (c : ℝ) (hc : 0 < c) :
    rowNorm (v.map (fun x => x / c)) = rowNorm v / c := by
  unfold rowNorm
  rw [List.map_map]
  have h1 : ((fun x : ℝ => x ^ 2) ∘ fun x : ℝ => x / c)
      = fun x : ℝ => x ^ 2 / c ^ 2 := by
    funext x
    simp [div_pow]
  rw [h1]
  have h2 : (v.map (fun x : ℝ => x ^ 2 / c ^ 2)).sum
      = (v.map (fun x : ℝ => x ^ 2)).sum / c ^ 2 := by
    induction v with
    | nil => simp
    | cons a t ih => simp [ih, add_div]
  rw [h2, Real.sqrt_div (row_sum_sq_nonneg v), Real.sqrt_sq hc.le]

/-- The norm of a single-entry row is the entry itself (when nonnegative). -/
lemma rowNorm_singleton (a : ℝ) (ha : 0 ≤ a) : rowNorm [a] = a := by
  simp [rowNorm, Real.sqrt_sq ha]

/-- The `eps` of `F.normalize` is positive. -/
lemma l2eps_pos : 0 < l2eps := by norm_num [l2eps]

/-- C10 counterexample: the row `[1e-13]` is nonzero, yet after
`F.normalize` (division by `max(norm, 1e-12)`) its norm is 1/10, not 1 —
so "every nonzero row has unit norm" fails for rows with norm below the
library's `eps`. -/
theorem c10_counterexample :
    ([(1 : ℝ) / 10 ^ 13] ≠ ([0] : List ℝ))
    ∧ rowNorm (normalizeRow [(1 : ℝ) / 10 ^ 13]) ≠ 1 := by
  constructor
  · intro h
    have := List.head_eq_of_cons_eq h
    norm_num at this
  · have ha : (0 : ℝ) ≤ 1 / 10 ^ 13 := by norm_num
    have h1 : rowNorm [(1 : ℝ) / 10 ^ 13] = 1 / 10 ^ 13 :=
      rowNorm_singleton _ ha
    have hmax : max (rowNorm [(1 : ℝ) / 10 ^ 13]) l2eps = l2eps := by
      rw [h1]
      exact max_eq_right (by norm_num [l2eps])
    have hdiv : (1 : ℝ) / 10 ^ 13 / l2eps = 1 / 10 := by
      rw [l2eps]
      norm_num
    simp only [normalizeRow, List.map_cons, List.map_nil, hmax, hdiv]
    rw [rowNorm_singleton (1 / 10) (by norm_num)]
    norm_num

/-- C10 (amended): the forward pass ends by applying `F.normalize` row-wise
before the linear classifier head (`gsHead`), dividing each row by
`max(norm, 1e-12)`: every row of norm at least `1e-12` reaches the
classifier with unit Euclidean norm, and every row — the tiny ones
included — reaches it with norm at most 1, so the classifier never sees
the raw aggregated embedding. -/
theorem c10_classifier_sees_normalized (v : List ℝ)
    (h : l2eps ≤ rowNorm v) :
    rowNorm (normalizeRow v) = 1
    ∧ ∀ w : List ℝ, rowNorm (normalizeRow w) ≤ 1 := by
  constructor
  · have hpos : 0 < rowNorm v := lt_of_lt_of_le l2eps_pos h
    have hmax : max (rowNorm v) l2eps = rowNorm v := max_eq_left h
    rw [normalizeRow, hmax, rowNorm_map_div v _ hpos, div_self (ne_of_gt hpos)]
  · intro w
    have hc : 0 < max (rowNorm w) l2eps := lt_max_of_lt_right l2eps_pos
    rw [normalizeRow, rowNorm_map_div w _ hc, div_le_one hc]
    exact le_max_left _ _

/-- C10 witness: the unit row `[1]` has norm above `eps` and is mapped to a
unit-norm row. -/
theorem c10_classifier_sees_normalized_witness :
    l2eps ≤ rowNorm [(1 : ℝ)] ∧ rowNorm (normalizeRow [(1 : ℝ)]) = 1 := by
  have h : l2eps ≤ rowNorm [(1 : ℝ)] := by
    rw [rowNorm_singleton 1 (by norm_num)]
    norm_num [l2eps]
  exact ⟨h, (c10_classifier_sees_normalized [(1 : ℝ)] h).1⟩
